import Mathlib

set_option maxRecDepth 8000

namespace MoneyTime

/-!
Shallow embedding of the Money → Time converter content script
(src/unnamed/part_000; the scanner, lexer, formatter and mutator are the
third revision, lines 346-615; the structured price helper is from the
first revision, lines 44-78).  Page text is modelled as a list of
characters and JS numbers as exact rationals.  The MONEY regular
expression is embedded by its ECMAScript matching semantics: ordered
alternation, greedy quantifiers with backtracking, word boundaries that
inspect the real neighbouring characters, and the global scan that
restarts each search at the end of the previous match.  Where the
backtracking search is determinised below, a comment justifies that the
determinisation is equivalent to the regex engine behaviour.
-/

abbrev Text := List Char

/-- ECMAScript character class \s (whitespace, including NBSP and BOM). -/
def isJsWs (c : Char) : Bool :=
  c == ' ' || c == '\t' || c == '\n' || c == '\x0b' || c == '\x0c' || c == '\r' ||
  c == '\u00A0' || c == '\u1680' || ('\u2000' ≤ c && c ≤ '\u200A') ||
  c == '\u2028' || c == '\u2029' || c == '\u202F' || c == '\u205F' ||
  c == '\u3000' || c == '\uFEFF'

/-- ECMAScript character class \w, the word characters used by \b. -/
def isWordChar (c : Char) : Bool :=
  ('a' ≤ c && c ≤ 'z') || ('A' ≤ c && c ≤ 'Z') || ('0' ≤ c && c ≤ '9') || c == '_'

/-- Greedy maximal munch of a single-character class star: the longest
prefix whose characters satisfy p, together with the rest of the text. -/
def takeWhileRun (p : Char → Bool) : Text → Text × Text
  | [] => ([], [])
  | c :: cs =>
    if p c then
      let r := takeWhileRun p cs
      (c :: r.1, r.2)
    else ([], c :: cs)

/-- The repetition (?:,\d{3})+ of the NUMBER pattern, taken greedily:
consume as many comma-plus-three-digit groups as possible.  The first
component is empty when no group is present. -/
def commaGroups : Text → Text × Text
  | ',' :: c1 :: c2 :: c3 :: rest =>
    if c1.isDigit && c2.isDigit && c3.isDigit then
      let r := commaGroups rest
      (',' :: c1 :: c2 :: c3 :: r.1, r.2)
    else ([], ',' :: c1 :: c2 :: c3 :: rest)
  | s => ([], s)

/-- The optional decimal part (?:\.\d+)? of the NUMBER pattern, taken
greedily: a dot followed by at least one digit, else nothing. -/
def decimalOpt : Text → Text × Text
  | '.' :: rest =>
    let r := takeWhileRun Char.isDigit rest
    if r.1.isEmpty then ([], '.' :: rest) else ('.' :: r.1, r.2)
  | s => ([], s)

/-- The NUMBER pattern (?:\d{1,3}(?:,\d{3})+|\d+)(?:\.\d+)? of the MONEY
regex, as its greedy first (longest) parse.  The comma-grouped
alternative applies exactly when the leading digit run has length at
most three and at least one ",ddd" group follows it; otherwise the plain
digit-run alternative applies.  The regex engine would offer shorter
backtracking candidates, but every shorter candidate leaves a digit, a
comma or a dot as the next unconsumed character, and each continuation
of NUMBER inside MONEY either always succeeds or requires whitespace or
a word boundary before a letter there, so no shorter candidate can ever
turn a failing continuation into a success.  The greedy parse is
therefore the only candidate that matters. -/
def numGreedy (s : Text) : Option (Text × Text) :=
  let d := takeWhileRun Char.isDigit s
  if d.1.isEmpty then none
  else
    let g := commaGroups d.2
    if d.1.length ≤ 3 && !g.1.isEmpty then
      let dec := decimalOpt g.2
      some (d.1 ++ g.1 ++ dec.1, dec.2)
    else
      let dec := decimalOpt d.2
      some (d.1 ++ dec.1, dec.2)

/-- The SCALE alternatives of the MONEY regex, lower-cased (the regex
carries the i flag). -/
def SCALE_WORDS : List Text :=
  ["trillion", "tn", "t", "billion", "bn", "b", "million", "mn", "m",
   "thousand", "k"].map String.toList

/-- The CODES alternatives USD|GBP|EUR, lower-cased (i flag). -/
def CODE_WORDS : List Text := ["usd", "gbp", "eur"].map String.toList

/-- A \b(?:w1|w2|...)\b keyword pattern under the i flag.  Every
alternative consists of word characters only, so the trailing \b forces
the matched alternative to cover the entire maximal word-character run
at the current position; hence at most one alternative can match and the
ordered alternation is equivalent to comparing that run, lower-cased,
against the word list.  The leading \b holds exactly when the previous
character is not a word character (the run starts with a letter). -/
def keywordCI (words : List Text) (prevIsWord : Bool) (s : Text) : Option (Text × Text) :=
  if prevIsWord then none
  else
    let r := takeWhileRun isWordChar s
    if !r.1.isEmpty && words.contains (r.1.map Char.toLower) then some r else none

/-- One match of the MONEY regex: the full matched text, the numeric
capture group (num1, num2 or num3) and the scale capture (suf1, suf2 or
suf3; empty when absent). -/
structure RMatch where
  consumed : Text
  numStr : Text
  sufStr : Text
deriving DecidableEq, Repr

/-- SYMBOL_FIRST = (?<sym>[$£€])\s*(?<num1>NUMBER)\s*(?<suf1>SCALE)?.
After NUMBER the remaining subpattern can always match empty, so the
greedy NUMBER parse is final; likewise the two \s* runs are maximal
because SCALE begins with \b followed by a letter and so can never start
at a whitespace character.  When the optional SCALE is absent the
whitespace consumed by the second \s* stays inside the match. -/
def SYMBOL_FIRST (s : Text) : Option RMatch :=
  match s with
  | [] => none
  | c :: rest =>
    if c == '$' || c == '£' || c == '€' then
      let w1 := takeWhileRun isJsWs rest
      match numGreedy w1.2 with
      | none => none
      | some (num, r2) =>
        let w2 := takeWhileRun isJsWs r2
        -- the character before the optional suffix is the last digit of
        -- NUMBER when no whitespace intervenes, hence a word character
        match keywordCI SCALE_WORDS w2.1.isEmpty w2.2 with
        | some (suf, _) => some ⟨c :: (w1.1 ++ num ++ w2.1 ++ suf), num, suf⟩
        | none => some ⟨c :: (w1.1 ++ num ++ w2.1), num, []⟩
    else none

/-- CODE_LAST = (?<num2>NUMBER)\s*(?<suf2>SCALE)?\s*(?<code1>CODES).
Determinised: whitespace is consumed maximally (SCALE and CODES both
need a letter after a non-word character, never a whitespace character);
if SCALE matched, CODES must match after the following whitespace run,
because retrying with the suffix dropped would ask CODES to match the
very word-character run that just matched a SCALE word, and the two
word sets are disjoint; and if the whole continuation fails, no shorter
backtracking candidate of NUMBER can help (see numGreedy). -/
def CODE_LAST (s : Text) : Option RMatch :=
  match numGreedy s with
  | none => none
  | some (num, r1) =>
    let w1 := takeWhileRun isJsWs r1
    match keywordCI SCALE_WORDS w1.1.isEmpty w1.2 with
    | some (suf, r2) =>
      let w2 := takeWhileRun isJsWs r2
      match keywordCI CODE_WORDS w2.1.isEmpty w2.2 with
      | some (code, _) => some ⟨num ++ w1.1 ++ suf ++ w2.1 ++ code, num, suf⟩
      | none => none
    | none =>
      match keywordCI CODE_WORDS w1.1.isEmpty w1.2 with
      | some (code, _) => some ⟨num ++ w1.1 ++ code, num, []⟩
      | none => none

/-- CODE_FIRST = (?<code2>CODES)\s*(?<num3>NUMBER)\s*(?<suf3>SCALE)?.
The leading \b of CODES inspects the character before the match, passed
in as prevIsWord.  As in SYMBOL_FIRST, trailing whitespace consumed by
the second \s* stays inside the match when the suffix is absent. -/
def CODE_FIRST (prevIsWord : Bool) (s : Text) : Option RMatch :=
  match keywordCI CODE_WORDS prevIsWord s with
  | none => none
  | some (code, r1) =>
    let w1 := takeWhileRun isJsWs r1
    match numGreedy w1.2 with
    | none => none
    | some (num, r2) =>
      let w2 := takeWhileRun isJsWs r2
      match keywordCI SCALE_WORDS w2.1.isEmpty w2.2 with
      | some (suf, _) => some ⟨code ++ w1.1 ++ num ++ w2.1 ++ suf, num, suf⟩
      | none => some ⟨code ++ w1.1 ++ num ++ w2.1, num, []⟩

/-- One attempt of the full MONEY alternation at a fixed position.  The
three alternatives are tried in source order; their first characters
(currency symbol, digit, letter) are mutually exclusive anyway.  prev is
the character immediately before the position, used by word boundaries. -/
def tryMatchAt (prev : Option Char) (s : Text) : Option RMatch :=
  match SYMBOL_FIRST s with
  | some m => some m
  | none =>
    match CODE_LAST s with
    | some m => some m
    | none =>
      CODE_FIRST (match prev with | some c => isWordChar c | none => false) s

/-- A piece of a scanned text: an unmatched gap (maximal, as produced by
the slicing in buildAnnotatedFragment) or a MONEY match. -/
inductive Chunk where
  | gap (t : Text)
  | matched (m : RMatch)
deriving DecidableEq, Repr

/-- Prepend one unmatched character to a chunk list, merging it into a
leading gap so that gaps stay maximal, exactly as the JS loop slices the
text between two matches into a single text node. -/
def consGap (c : Char) : List Chunk → List Chunk
  | Chunk.gap g :: rest => Chunk.gap (c :: g) :: rest
  | l => Chunk.gap [c] :: l

/-- The global scan regex.exec performs from lastIndex 0: at each
position try the alternation; on success continue right after the match
(every match is nonempty, see tryMatchAt_ne_nil), otherwise advance one
character into the current gap.  The drop of one character less from the
tail equals dropping the whole consumed text from the input.  Recursion
is on an explicit step budget: every step consumes at least one
character, so a budget of the text length (supplied by scanChunks below)
is never exhausted. -/
def scanChunksFuel : ℕ → Option Char → Text → List Chunk
  | 0, _, _ => []
  | _ + 1, _, [] => []
  | n + 1, prev, c :: rest =>
    match tryMatchAt prev (c :: rest) with
    | some m =>
      Chunk.matched m ::
        scanChunksFuel n m.consumed.getLast? (rest.drop (m.consumed.length - 1))
    | none => consGap c (scanChunksFuel n (some c) rest)

/-- The full global scan of a text. -/
def scanChunks (prev : Option Char) (s : Text) : List Chunk :=
  scanChunksFuel s.length prev s

/-- Absolute [start, end) spans of the matches in a chunk list laid out
from a given offset. -/
def spansFrom (pos : ℕ) : List Chunk → List (ℕ × ℕ)
  | [] => []
  | Chunk.gap g :: rest => spansFrom (pos + g.length) rest
  | Chunk.matched m :: rest =>
    (pos, pos + m.consumed.length) :: spansFrom (pos + m.consumed.length) rest

/-- The match spans the annotation-building loop observes on a string:
match.index and regex.lastIndex of each successive exec. -/
def matchSpans (t : Text) : List (ℕ × ℕ) := spansFrom 0 (scanChunks none t)

/-- regex.test on a fresh lastIndex: does any position match. -/
def hasMatch (t : Text) : Bool :=
  (scanChunks none t).any (fun ch => match ch with | Chunk.matched _ => true | _ => false)

/-! ## Amount extraction (MONEY.amountFromMatch) -/

/-- Value of a digit string, most significant digit first. -/
def digitsToNat : Text → ℕ
  | [] => 0
  | c :: cs => (c.toNat - 48) * 10 ^ cs.length + digitsToNat cs

/-- parseFloat on the comma-stripped numeric capture.  The captures
produced by NUMBER are always of the shape digits, optionally followed
by a dot and more digits, and on that shape parseFloat returns the exact
decimal value; any other input is modelled as NaN (none).  parseFloat
on the empty string is NaN, which is what the source guards against. -/
def parseNum (s : Text) : Option ℚ :=
  let ip := takeWhileRun Char.isDigit s
  if ip.1.isEmpty then none
  else
    match ip.2 with
    | [] => some (digitsToNat ip.1)
    | '.' :: fr =>
      let fp := takeWhileRun Char.isDigit fr
      if !fp.1.isEmpty && fp.2.isEmpty then
        some ((digitsToNat ip.1 : ℚ) + (digitsToNat fp.1 : ℚ) / 10 ^ fp.1.length)
      else none
    | _ => none

/-- SCALE_MAP lookup with default 1, after lower-casing, as in
multiplier(suffix). -/
def multiplier (suf : Text) : ℚ :=
  match String.mk (suf.map Char.toLower) with
  | "k" => 1000
  | "thousand" => 1000
  | "m" => 1000000
  | "mn" => 1000000
  | "million" => 1000000
  | "b" => 1000000000
  | "bn" => 1000000000
  | "billion" => 1000000000
  | "t" => 1000000000000
  | "tn" => 1000000000000
  | "trillion" => 1000000000000
  | _ => 1

/-- amountFromMatch: strip commas from the numeric capture, parseFloat,
multiply by the scale factor.  none models the NaN result. -/
def amountFromMatch (m : RMatch) : Option ℚ :=
  match parseNum (m.numStr.filter (fun c => c ≠ ',')) with
  | none => none
  | some base => some (base * multiplier m.sufStr)

/-! ## Time formatter (formatTimeFromMoney) -/

/-- Display modes recognised by the third revision.  The stored value is
a string compared against "tooltip", "inline" and "replace" in turn; a
configuration holding any other string (which would make the if chain
of buildAnnotatedFragment append an empty wrapper) is outside this
model. -/
inductive DisplayMode where
  | inline
  | tooltip
  | replace
deriving DecidableEq, Repr

/-- The process-wide settings the engine reads: hourlyRate plus the work
schedule and the display mode (currencySymbol is display-only and the
legacy hoursPerWeek is never read by this script, so both are omitted). -/
structure Settings where
  hourlyRate : ℚ
  hoursPerDay : ℚ
  daysPerWeek : ℚ
  displayMode : DisplayMode
deriving DecidableEq, Repr

/-- The DEFAULT settings object. -/
def DEFAULT : Settings := ⟨15, 8, 5, DisplayMode.inline⟩

/-- One emitted unit part: the count pushed as `${count}${unit.short}`
together with the unit it came from. -/
structure TPart where
  count : ℤ
  short : String
  minutes : ℚ
deriving DecidableEq, Repr

/-- The UNITS table derived from the work schedule, in source order. -/
def unitsFor (st : Settings) : List (String × ℚ) :=
  let workMinutesPerDay := st.hoursPerDay * 60
  let workMinutesPerWeek := workMinutesPerDay * st.daysPerWeek
  let workMinutesPerMonth := workMinutesPerWeek * (52 / 12)
  let workMinutesPerYear := workMinutesPerWeek * 52
  [("c", workMinutesPerYear * 100), ("y", workMinutesPerYear),
   ("mo", workMinutesPerMonth), ("w", workMinutesPerWeek),
   ("d", workMinutesPerDay), ("h", 60), ("min", 1)]

/-- The greedy decomposition loop of formatTimeFromMoney: walk the unit
table, stop once three parts are emitted, skip non-positive units, emit
floor(remaining / minutes) when positive and subtract.  Returns the
emitted parts and the final remaining value. -/
def tfLoop : List (String × ℚ) → ℚ → List TPart → List TPart × ℚ
  | [], remaining, parts => (parts, remaining)
  | (s, m) :: rest, remaining, parts =>
    if 3 ≤ parts.length then (parts, remaining)
    else if m ≤ 0 then tfLoop rest remaining parts
    else
      let c := ⌊remaining / m⌋
      if 0 < c then tfLoop rest (remaining - c * m) (parts ++ [⟨c, s, m⟩])
      else tfLoop rest remaining parts

/-- The parts emitted by formatTimeFromMoney for a given amount and
hourly rate, starting from the floored total minutes. -/
def timeParts (st : Settings) (amount hourlyRate : ℚ) : List TPart :=
  (tfLoop (unitsFor st) (⌊amount / hourlyRate * 60⌋ : ℤ) []).1

/-- Render one part as `${count}${unit.short}`. -/
def renderPart (p : TPart) : String := toString p.count ++ p.short

/-- formatTimeFromMoney: null on non-positive (in exact arithmetic,
necessarily finite) amount or rate, the "<1m" sentinel when no part was
emitted, otherwise the parts joined with single spaces. -/
def formatTimeFromMoney (st : Settings) (amount hourlyRate : ℚ) : Option String :=
  if amount ≤ 0 ∨ hourlyRate ≤ 0 then none
  else
    let parts := timeParts st amount hourlyRate
    if parts.isEmpty then some "<1m"
    else some (String.intercalate " " (parts.map renderPart))

/-- Sum over emitted parts of count times the minutes of that unit. -/
def partsSumQ (parts : List TPart) : ℚ :=
  (parts.map (fun p => (p.count : ℚ) * p.minutes)).sum

/-! ## Document tree, annotation builder and mutator -/

/-- A document node: a text node, or an element with a tag name, its
data-mt-processed and data-mt-ignore attributes, and children.  Class
names and title attributes never influence scanning or text content and
are not modelled. -/
inductive Dom where
  | text (s : Text)
  | elem (tag : String) (processed : Bool) (ignore : Bool) (children : List Dom)
deriving Repr

mutual

/-- textContent of a node. -/
def domText : Dom → Text
  | Dom.text s => s
  | Dom.elem _ _ _ cs => domTextList cs

/-- textContent of a node list (a fragment). -/
def domTextList : List Dom → Text
  | [] => []
  | d :: ds => domText d ++ domTextList ds

end

/-- The mt-wrapper span: marked data-mt-processed="true". -/
def mkWrapper (children : List Dom) : Dom := Dom.elem "SPAN" true false children

/-- The nodes buildAnnotatedFragment appends for one match.  The time
string is computed from amountFromMatch (NaN gives null) through
formatTimeFromMoney with the current hourlyRate.  A null time string
appends the raw matched text as a plain, unmarked text node. -/
def matchToDoms (st : Settings) (m : RMatch) : List Dom :=
  let timeStr :=
    match amountFromMatch m with
    | none => none
    | some amount => formatTimeFromMoney st amount st.hourlyRate
  match timeStr with
  | none => [Dom.text m.consumed]
  | some ts =>
    match st.displayMode with
    | DisplayMode.tooltip => [mkWrapper [Dom.text m.consumed]]
    | DisplayMode.inline =>
      let pad : String := match m.consumed.getLast? with
        | some c => if isJsWs c then "" else " "
        | none => " "
      [mkWrapper [Dom.text m.consumed,
        Dom.elem "SPAN" false false
          [Dom.text (pad ++ "(" ++ ts ++ ") ").toList]]]
    | DisplayMode.replace => [mkWrapper [Dom.text ts.toList]]

/-- buildAnnotatedFragment: scan the text value, emit one text node per
gap between matches (and after the last match) and the wrapper or
fallback nodes for each match, in order. -/
def buildAnnotatedFragment (st : Settings) (t : Text) : List Dom :=
  ((scanChunks none t).map (fun ch =>
    match ch with
    | Chunk.gap g => [Dom.text g]
    | Chunk.matched m => matchToDoms st m)).flatten

/-- The SKIP_TAGS set. -/
def SKIP_TAGS : List String :=
  ["SCRIPT", "STYLE", "NOSCRIPT", "IFRAME", "CODE", "PRE", "TEXTAREA", "INPUT"]

/-- processTextNode on a text node value, given its parent context: the
parent tag, and whether parent.closest finds a data-mt-processed or a
data-mt-ignore ancestor (the node itself and everything up the chain).
Returns the child list that replaces the node and whether replaceChild
was actually called (the mutation). -/
def processTextNode (st : Settings) (ancProcessed ancIgnore : Bool)
    (parentTag : String) (s : Text) : List Dom × Bool :=
  if SKIP_TAGS.contains parentTag then ([Dom.text s], false)
  else if ancProcessed then ([Dom.text s], false)
  else if ancIgnore then ([Dom.text s], false)
  else if !hasMatch s then ([Dom.text s], false)
  else
    let frag := buildAnnotatedFragment st s
    if frag.isEmpty then ([Dom.text s], false) else (frag, true)

mutual

/-- The tree walker of processDocument combined with processTextNode.
The walker snapshots eligible text nodes first and processes them
afterwards; since each replacement is local to one text node and does
not change the ancestor chain of any other collected node, this equals a
one-pass structural map.  The walker rejects blank text nodes, nodes
under SKIP_TAGS parents and nodes with a data-mt-processed ancestor. -/
def processNode (st : Settings) (ancProcessed ancIgnore : Bool)
    (parentTag : String) : Dom → List Dom
  | Dom.text s =>
    if s.any (fun c => !isJsWs c) && !SKIP_TAGS.contains parentTag && !ancProcessed then
      (processTextNode st ancProcessed ancIgnore parentTag s).1
    else [Dom.text s]
  | Dom.elem tag p i cs =>
    [Dom.elem tag p i (processNodeList st (ancProcessed || p) (ancIgnore || i) tag cs)]

/-- processNode on each child in order. -/
def processNodeList (st : Settings) (ancProcessed ancIgnore : Bool)
    (parentTag : String) : List Dom → List Dom
  | [] => []
  | d :: ds =>
    processNode st ancProcessed ancIgnore parentTag d ++
      processNodeList st ancProcessed ancIgnore parentTag ds

end

/-- processDocument on a root element (the third revision: text nodes
only).  The root sits in the live document with no modelled ancestors. -/
def processDocument (st : Settings) : Dom → Dom
  | Dom.elem tag p i cs => Dom.elem tag p i (processNodeList st p i tag cs)
  | Dom.text s => Dom.text s

/-! ## Structured price helper (first revision, lines 44-78) -/

/-- The price text processStructuredPrice reconstructs: the trimmed
a-offscreen text when present and nonblank (passed here already
trimmed, [] meaning absent or blank), otherwise symbol then whole then
fraction concatenated, provided whole is nonempty. -/
def structuredPriceText (offscreenTrimmed symbol whole fraction : Text) : Option Text :=
  if !offscreenTrimmed.isEmpty then some offscreenTrimmed
  else if whole.isEmpty then none
  else some (symbol ++ whole ++ fraction)

/-- The first match of /([\d,.]+)/ on the price text: the leftmost
maximal run of digits, commas and dots. -/
def firstNumericRun : Text → Option Text
  | [] => none
  | c :: rest =>
    if c.isDigit || c == ',' || c == '.' then
      some (c :: (takeWhileRun (fun d => d.isDigit || d == ',' || d == '.') rest).1)
    else firstNumericRun rest

/-- The amount processStructuredPrice parses from a price text: first
numeric run, commas stripped, parseFloat. -/
def structuredAmount (priceText : Text) : Option ℚ :=
  match firstNumericRun priceText with
  | none => none
  | some run => parseNum (run.filter (fun c => c ≠ ','))

/-! ## Decidable equality of document trees -/

mutual

/-- Boolean equality of nodes. -/
def domBEq : Dom → Dom → Bool
  | Dom.text s, Dom.text t => s == t
  | Dom.elem tag1 p1 i1 cs1, Dom.elem tag2 p2 i2 cs2 =>
    tag1 == tag2 && p1 == p2 && i1 == i2 && domBEqList cs1 cs2
  | _, _ => false

/-- Boolean equality of node lists. -/
def domBEqList : List Dom → List Dom → Bool
  | [], [] => true
  | d :: ds, e :: es => domBEq d e && domBEqList ds es
  | _, _ => false

end

mutual

theorem domBEq_iff : ∀ a b : Dom, domBEq a b = true ↔ a = b
  | Dom.text s, Dom.text t => by simp [domBEq]
  | Dom.text s, Dom.elem tag2 p2 i2 cs2 => by simp [domBEq]
  | Dom.elem tag1 p1 i1 cs1, Dom.text t => by simp [domBEq]
  | Dom.elem tag1 p1 i1 cs1, Dom.elem tag2 p2 i2 cs2 => by
    simp [domBEq, domBEqList_iff cs1 cs2, and_assoc]

theorem domBEqList_iff : ∀ as bs : List Dom, domBEqList as bs = true ↔ as = bs
  | [], [] => by simp [domBEqList]
  | [], e :: es => by simp [domBEqList]
  | d :: ds, [] => by simp [domBEqList]
  | d :: ds, e :: es => by
    simp [domBEqList, domBEq_iff d e, domBEqList_iff ds es]

end

instance : DecidableEq Dom := fun a b => decidable_of_iff _ (domBEq_iff a b)

/-! ## Lexer lemmas: every match consumes at least one character, so the
global scan produces disjoint, sorted spans -/

theorem takeWhileRun_append (p : Char → Bool) :
    ∀ l : Text, (takeWhileRun p l).1 ++ (takeWhileRun p l).2 = l
  | [] => rfl
  | c :: cs => by
    simp only [takeWhileRun]
    split
    · simpa using takeWhileRun_append p cs
    · rfl

theorem takeWhileRun_all (p : Char → Bool) :
    ∀ l : Text, ∀ c ∈ (takeWhileRun p l).1, p c = true
  | [] => by simp [takeWhileRun]
  | c :: cs => by
    simp only [takeWhileRun]
    split
    · next hp =>
      intro d hd
      rcases List.mem_cons.mp hd with h | h
      · exact h ▸ hp
      · exact takeWhileRun_all p cs d h
    · simp

theorem takeWhileRun_eq_of (p : Char → Bool) :
    ∀ (a : Text) (b : Text), (∀ c ∈ a, p c = true) →
      (∀ c, b.head? = some c → p c = false) → takeWhileRun p (a ++ b) = (a, b)
  | [], b, _, hb => by
    cases b with
    | nil => rfl
    | cons c bs => simp [takeWhileRun, hb c rfl]
  | x :: xs, b, ha, hb => by
    have hx : p x = true := ha x (List.mem_cons_self x xs)
    simp only [List.cons_append, takeWhileRun, hx, if_true]
    rw [show xs.append b = xs ++ b from rfl,
      takeWhileRun_eq_of p xs b (fun c hc => ha c (List.mem_cons_of_mem x hc)) hb]

theorem numGreedy_ne_nil {s n : Text} {r : Text} (h : numGreedy s = some (n, r)) :
    n ≠ [] := by
  simp only [numGreedy] at h
  split at h
  · exact absurd h (by simp)
  · next hne =>
    have hd : (takeWhileRun Char.isDigit s).1 ≠ [] := by
      simpa [List.isEmpty_iff] using hne
    split at h <;>
      · simp only [Option.some_inj, Prod.mk.injEq] at h
        rcases h with ⟨h1, _⟩
        subst h1
        simp [hd]

theorem keywordCI_run_ne_nil {w : List Text} {b : Bool} {s run r : Text}
    (h : keywordCI w b s = some (run, r)) : run ≠ [] := by
  cases b with
  | true => simp [keywordCI] at h
  | false =>
    simp only [keywordCI, Bool.false_eq_true, if_false] at h
    by_cases hc : ((!(takeWhileRun isWordChar s).1.isEmpty) &&
        w.contains ((takeWhileRun isWordChar s).1.map Char.toLower)) = true
    · rw [if_pos hc] at h
      simp only [Option.some_inj] at h
      have h1 : (takeWhileRun isWordChar s).1 = run := by rw [h]
      have h2 := (Bool.and_eq_true _ _).mp hc
      rw [← h1]
      simpa [List.isEmpty_iff] using h2.1
    · rw [if_neg hc] at h
      exact absurd h (by simp)

theorem SYMBOL_FIRST_ne_nil {s : Text} {m : RMatch} (h : SYMBOL_FIRST s = some m) :
    m.consumed ≠ [] := by
  cases s with
  | nil => simp [SYMBOL_FIRST] at h
  | cons c rest =>
    simp only [SYMBOL_FIRST] at h
    split at h
    · split at h
      · exact absurd h (by simp)
      · split at h <;>
          · simp only [Option.some_inj] at h
            subst h
            simp
    · exact absurd h (by simp)

theorem CODE_LAST_ne_nil {s : Text} {m : RMatch} (h : CODE_LAST s = some m) :
    m.consumed ≠ [] := by
  simp only [CODE_LAST] at h
  split at h
  · exact absurd h (by simp)
  · next num r1 hnum =>
    have hn : num ≠ [] := numGreedy_ne_nil hnum
    split at h
    · split at h
      · simp only [Option.some_inj] at h
        subst h
        simp [hn]
      · exact absurd h (by simp)
    · split at h
      · simp only [Option.some_inj] at h
        subst h
        simp [hn]
      · exact absurd h (by simp)

theorem CODE_FIRST_ne_nil {b : Bool} {s : Text} {m : RMatch}
    (h : CODE_FIRST b s = some m) : m.consumed ≠ [] := by
  simp only [CODE_FIRST] at h
  split at h
  · exact absurd h (by simp)
  · next code r1 hcode =>
    have hc : code ≠ [] := keywordCI_run_ne_nil hcode
    split at h
    · exact absurd h (by simp)
    · split at h <;>
        · simp only [Option.some_inj] at h
          subst h
          simp [hc]

theorem tryMatchAt_ne_nil {prev : Option Char} {s : Text} {m : RMatch}
    (h : tryMatchAt prev s = some m) : m.consumed ≠ [] := by
  simp only [tryMatchAt] at h
  split at h
  · next h1 =>
    simp only [Option.some_inj] at h
    exact h ▸ SYMBOL_FIRST_ne_nil h1
  · split at h
    · next h2 =>
      simp only [Option.some_inj] at h
      exact h ▸ CODE_LAST_ne_nil h2
    · exact CODE_FIRST_ne_nil h

/-- The well-formedness every produced chunk enjoys: matches are
nonempty. -/
def chunkOk : Chunk → Prop
  | Chunk.gap _ => True
  | Chunk.matched m => m.consumed ≠ []

theorem consGap_ok {c : Char} {l : List Chunk} (hl : ∀ ch ∈ l, chunkOk ch) :
    ∀ ch ∈ consGap c l, chunkOk ch := by
  cases l with
  | nil => intro ch hch; simp only [consGap] at hch; simp at hch; simp [hch, chunkOk]
  | cons hd tl =>
    cases hd with
    | gap g =>
      intro ch hch
      simp only [consGap] at hch
      rcases List.mem_cons.mp hch with h | h
      · simp [h, chunkOk]
      · exact hl _ (List.mem_cons_of_mem _ h)
    | matched m =>
      intro ch hch
      simp only [consGap] at hch
      rcases List.mem_cons.mp hch with h | h
      · simp [h, chunkOk]
      · exact hl _ h

theorem scanChunksFuel_ok :
    ∀ (n : ℕ) (prev : Option Char) (s : Text),
      ∀ ch ∈ scanChunksFuel n prev s, chunkOk ch := by
  intro n
  induction n with
  | zero =>
    intro prev s ch hch
    simp [scanChunksFuel] at hch
  | succ n ih =>
    intro prev s ch hch
    cases s with
    | nil => simp [scanChunksFuel] at hch
    | cons c rest =>
      rw [scanChunksFuel] at hch
      revert hch
      split
      · next m hm =>
        intro hch
        rcases List.mem_cons.mp hch with h | h
        · subst h
          exact tryMatchAt_ne_nil hm
        · exact ih _ _ _ h
      · intro hch
        exact consGap_ok (fun ch2 h2 => ih (some c) rest ch2 h2) ch hch

theorem scanChunks_ok (prev : Option Char) (s : Text) :
    ∀ ch ∈ scanChunks prev s, chunkOk ch :=
  scanChunksFuel_ok s.length prev s

theorem spansFrom_ok :
    ∀ (chunks : List Chunk), (∀ ch ∈ chunks, chunkOk ch) → ∀ pos : ℕ,
      (spansFrom pos chunks).Pairwise (fun a b => a.2 ≤ b.1 ∧ a.1 < b.1) ∧
      List.Forall (fun sp => sp.1 < sp.2) (spansFrom pos chunks) ∧
      ∀ sp ∈ spansFrom pos chunks, pos ≤ sp.1
  | [], _, pos => by simp [spansFrom]
  | Chunk.gap g :: rest, h, pos => by
    have ih := spansFrom_ok rest (fun ch hc => h ch (List.mem_cons_of_mem _ hc)) (pos + g.length)
    refine ⟨?_, ?_, ?_⟩
    · simpa [spansFrom] using ih.1
    · simpa [spansFrom] using ih.2.1
    · intro sp hsp
      simp only [spansFrom] at hsp
      exact le_trans (Nat.le_add_right pos g.length) (ih.2.2 sp hsp)
  | Chunk.matched m :: rest, h, pos => by
    have hm : m.consumed ≠ [] := h (Chunk.matched m) (List.mem_cons_self _ _)
    have hlen : 0 < m.consumed.length := List.length_pos.mpr hm
    have ih := spansFrom_ok rest (fun ch hc => h ch (List.mem_cons_of_mem _ hc))
      (pos + m.consumed.length)
    refine ⟨?_, ?_, ?_⟩
    · simp only [spansFrom]
      refine List.pairwise_cons.mpr ⟨?_, ih.1⟩
      intro sp hsp
      have := ih.2.2 sp hsp
      exact ⟨this, by omega⟩
    · simp only [spansFrom, List.forall_cons]
      exact ⟨by omega, ih.2.1⟩
    · intro sp hsp
      simp only [spansFrom] at hsp
      rcases List.mem_cons.mp hsp with h1 | h1
      · subst h1; exact le_refl _
      · exact le_trans (Nat.le_add_right _ _) (ih.2.2 sp h1)

/-! ## Lexer value lemmas: every numeric capture parses to a
non-negative amount -/

theorem commaGroups_chars : ∀ s : Text, ∀ c ∈ (commaGroups s).1, c = ',' ∨ c.isDigit = true := by
  intro s
  induction s using commaGroups.induct with
  | case1 c1 c2 c3 rest hd ih =>
    simp only [commaGroups, hd, if_true]
    intro c hc
    rcases List.mem_cons.mp hc with h | hc
    · exact Or.inl h
    · rcases List.mem_cons.mp hc with h | hc
      · exact Or.inr (h ▸ (Bool.and_eq_true _ _).mp ((Bool.and_eq_true _ _).mp hd).1 |>.1)
      · rcases List.mem_cons.mp hc with h | hc
        · exact Or.inr (h ▸ (Bool.and_eq_true _ _).mp ((Bool.and_eq_true _ _).mp hd).1 |>.2)
        · rcases List.mem_cons.mp hc with h | hc
          · exact Or.inr (h ▸ ((Bool.and_eq_true _ _).mp hd).2)
          · exact ih c hc
  | case2 c1 c2 c3 rest hd =>
    simp [commaGroups, hd]
  | case3 s hs =>
    rw [commaGroups.eq_def]
    split
    · next c1 c2 c3 rest => exact absurd rfl (hs c1 c2 c3 rest)
    · simp

theorem decimalOpt_shape (s : Text) :
    (decimalOpt s).1 = [] ∨
      ∃ f, (decimalOpt s).1 = '.' :: f ∧ f ≠ [] ∧ ∀ c ∈ f, c.isDigit = true := by
  rw [decimalOpt.eq_def]
  split
  · next rest =>
    by_cases he : (takeWhileRun Char.isDigit rest).1.isEmpty = true
    · rw [if_pos he]
      exact Or.inl rfl
    · rw [if_neg he]
      refine Or.inr ⟨(takeWhileRun Char.isDigit rest).1, rfl, ?_, ?_⟩
      · simpa [List.isEmpty_iff] using he
      · exact takeWhileRun_all Char.isDigit rest
  · exact Or.inl rfl

theorem filter_eq_self_of_digits (l : Text) (h : ∀ c ∈ l, c.isDigit = true) :
    l.filter (fun c => c ≠ ',') = l := by
  refine List.filter_eq_self.mpr ?_
  intro c hc
  have hd := h c hc
  simp only [ne_eq, decide_eq_true_eq]
  intro he
  subst he
  simp at hd

theorem parseNum_digits (ds : Text) (h1 : ds ≠ []) (h2 : ∀ c ∈ ds, c.isDigit = true) :
    parseNum ds = some ((digitsToNat ds : ℕ) : ℚ) := by
  have e : takeWhileRun Char.isDigit ds = (ds, []) := by
    have := takeWhileRun_eq_of Char.isDigit ds [] h2 (by simp)
    simpa using this
  simp [parseNum, e, List.isEmpty_iff, h1]

theorem parseNum_digits_frac (ds f : Text) (h1 : ds ≠ []) (h2 : ∀ c ∈ ds, c.isDigit = true)
    (h3 : f ≠ []) (h4 : ∀ c ∈ f, c.isDigit = true) :
    parseNum (ds ++ '.' :: f) =
      some ((digitsToNat ds : ℚ) + (digitsToNat f : ℚ) / 10 ^ f.length) := by
  have e1 : takeWhileRun Char.isDigit (ds ++ '.' :: f) = (ds, '.' :: f) := by
    refine takeWhileRun_eq_of Char.isDigit ds ('.' :: f) h2 ?_
    intro c hc
    simp only [List.head?_cons, Option.some_inj] at hc
    subst hc
    decide
  have e2 : takeWhileRun Char.isDigit f = (f, []) := by
    have := takeWhileRun_eq_of Char.isDigit f [] h4 (by simp)
    simpa using this
  simp [parseNum, e1, e2, List.isEmpty_iff, h1, h3]

theorem parseNum_shape (ds tail : Text) (h1 : ds ≠ []) (h2 : ∀ c ∈ ds, c.isDigit = true)
    (h3 : tail = [] ∨ ∃ f, tail = '.' :: f ∧ f ≠ [] ∧ ∀ c ∈ f, c.isDigit = true) :
    ∃ q : ℚ, parseNum (ds ++ tail) = some q ∧ 0 ≤ q := by
  rcases h3 with h | ⟨f, rfl, hf1, hf2⟩
  · subst h
    rw [List.append_nil, parseNum_digits ds h1 h2]
    exact ⟨_, rfl, by positivity⟩
  · rw [parseNum_digits_frac ds f h1 h2 hf1 hf2]
    exact ⟨_, rfl, by positivity⟩

theorem numGreedy_parse {s n r : Text} (h : numGreedy s = some (n, r)) :
    ∃ q : ℚ, parseNum (n.filter (fun c => c ≠ ',')) = some q ∧ 0 ≤ q := by
  simp only [numGreedy] at h
  split at h
  · exact absurd h (by simp)
  · next hne =>
    have hd1 : (takeWhileRun Char.isDigit s).1 ≠ [] := by
      simpa [List.isEmpty_iff] using hne
    have hd2 : ∀ c ∈ (takeWhileRun Char.isDigit s).1, c.isDigit = true :=
      takeWhileRun_all Char.isDigit s
    have hfd := filter_eq_self_of_digits _ hd2
    split at h
    · -- comma-grouped alternative
      simp only [Option.some_inj, Prod.mk.injEq] at h
      rcases h with ⟨h1, _⟩
      subst h1
      set d1 := (takeWhileRun Char.isDigit s).1 with hd1e
      set g1 := (commaGroups (takeWhileRun Char.isDigit s).2).1 with hg1e
      set dec1 := (decimalOpt (commaGroups (takeWhileRun Char.isDigit s).2).2).1 with hdec1e
      have hg : ∀ c ∈ g1, c = ',' ∨ c.isDigit = true := commaGroups_chars _
      have hdec := decimalOpt_shape (commaGroups (takeWhileRun Char.isDigit s).2).2
      have hgf : ∀ c ∈ g1.filter (fun c => c ≠ ','), c.isDigit = true := by
        intro c hc
        have hm := List.mem_filter.mp hc
        rcases hg c hm.1 with h | h
        · exact absurd h (by simpa using hm.2)
        · exact h
      have hdf : dec1.filter (fun c => c ≠ ',') = dec1 := by
        rcases hdec with h | ⟨f, hf, _, hfd2⟩
        · rw [← hdec1e] at h
          simp [h]
        · rw [← hdec1e] at hf
          rw [hf]
          have hdc : ('.' : Char) ≠ ',' := by decide
          simp only [List.filter_cons]
          rw [filter_eq_self_of_digits f hfd2]
          simp [hdc]
      have heq : (d1 ++ g1 ++ dec1).filter (fun c => c ≠ ',') =
          (d1 ++ g1.filter (fun c => c ≠ ',')) ++ dec1 := by
        simp only [List.filter_append, hfd, hdf, List.append_assoc]
      rw [heq]
      refine parseNum_shape _ _ ?_ ?_ ?_
      · simp [hd1]
      · intro c hc
        rcases List.mem_append.mp hc with h | h
        · exact hd2 c h
        · exact hgf c h
      · rw [hdec1e]
        exact hdec
    · -- plain digit-run alternative
      simp only [Option.some_inj, Prod.mk.injEq] at h
      rcases h with ⟨h1, _⟩
      subst h1
      set d1 := (takeWhileRun Char.isDigit s).1 with hd1e
      set dec1 := (decimalOpt (takeWhileRun Char.isDigit s).2).1 with hdec1e
      have hdec := decimalOpt_shape (takeWhileRun Char.isDigit s).2
      have hdf : dec1.filter (fun c => c ≠ ',') = dec1 := by
        rcases hdec with h | ⟨f, hf, _, hfd2⟩
        · rw [← hdec1e] at h
          simp [h]
        · rw [← hdec1e] at hf
          rw [hf]
          have hdc : ('.' : Char) ≠ ',' := by decide
          simp only [List.filter_cons]
          rw [filter_eq_self_of_digits f hfd2]
          simp [hdc]
      have heq : (d1 ++ dec1).filter (fun c => c ≠ ',') = d1 ++ dec1 := by
        simp only [List.filter_append, hfd, hdf]
      rw [heq]
      refine parseNum_shape _ _ hd1 hd2 ?_
      rw [hdec1e]
      exact hdec

theorem multiplier_pos (suf : Text) : 0 < multiplier suf := by
  unfold multiplier
  split <;> norm_num

theorem SYMBOL_FIRST_numStr {s : Text} {m : RMatch} (h : SYMBOL_FIRST s = some m) :
    ∃ s2 r2, numGreedy s2 = some (m.numStr, r2) := by
  cases s with
  | nil => simp [SYMBOL_FIRST] at h
  | cons c rest =>
    simp only [SYMBOL_FIRST] at h
    split at h
    · split at h
      · exact absurd h (by simp)
      · next num r2 hnum =>
        split at h <;>
          · simp only [Option.some_inj] at h
            subst h
            exact ⟨_, _, hnum⟩
    · exact absurd h (by simp)

theorem CODE_LAST_numStr {s : Text} {m : RMatch} (h : CODE_LAST s = some m) :
    ∃ s2 r2, numGreedy s2 = some (m.numStr, r2) := by
  simp only [CODE_LAST] at h
  split at h
  · exact absurd h (by simp)
  · next num r1 hnum =>
    split at h
    · split at h
      · simp only [Option.some_inj] at h
        subst h
        exact ⟨_, _, hnum⟩
      · exact absurd h (by simp)
    · split at h
      · simp only [Option.some_inj] at h
        subst h
        exact ⟨_, _, hnum⟩
      · exact absurd h (by simp)

theorem CODE_FIRST_numStr {b : Bool} {s : Text} {m : RMatch}
    (h : CODE_FIRST b s = some m) :
    ∃ s2 r2, numGreedy s2 = some (m.numStr, r2) := by
  simp only [CODE_FIRST] at h
  split at h
  · exact absurd h (by simp)
  · split at h
    · exact absurd h (by simp)
    · next num r2 hnum =>
      split at h <;>
        · simp only [Option.some_inj] at h
          subst h
          exact ⟨_, _, hnum⟩

theorem tryMatchAt_numStr {prev : Option Char} {s : Text} {m : RMatch}
    (h : tryMatchAt prev s = some m) :
    ∃ s2 r2, numGreedy s2 = some (m.numStr, r2) := by
  simp only [tryMatchAt] at h
  split at h
  · next h1 =>
    simp only [Option.some_inj] at h
    exact h ▸ SYMBOL_FIRST_numStr h1
  · split at h
    · next h2 =>
      simp only [Option.some_inj] at h
      exact h ▸ CODE_LAST_numStr h2
    · exact CODE_FIRST_numStr h

/-- C6: for every input string, the match spans produced by repeatedly
executing the money regex from offset 0, each search anchored after the
previous match, are pairwise disjoint [start, end) intervals whose start
offsets are strictly increasing, and every span is nonempty. -/
theorem mtc6_lexer_spans (s : String) :
    (matchSpans s.toList).Pairwise (fun a b => a.2 ≤ b.1 ∧ a.1 < b.1) ∧
    List.Forall (fun sp => sp.1 < sp.2) (matchSpans s.toList) := by
  have h := spansFrom_ok (scanChunks none s.toList)
    (scanChunks_ok none s.toList) 0
  exact ⟨h.1, h.2.1⟩

/-- Witness: the span property instantiated on a concrete two-match
string. -/
theorem mtc6_lexer_spans_witness :
    (matchSpans ("a $1 b $2".toList)).Pairwise (fun a b => a.2 ≤ b.1 ∧ a.1 < b.1) ∧
    List.Forall (fun sp => sp.1 < sp.2) (matchSpans ("a $1 b $2".toList)) :=
  mtc6_lexer_spans "a $1 b $2"

/-- C10 (amended): for every regex-produced match the numeric capture is
nonempty and amountFromMatch returns a finite non-negative rational, so
the fallback branch of buildAnnotatedFragment is never reached because
of an unparsable (NaN) amount; it is still reachable for non-positive
parsed amounts such as "$0", or when the stored hourlyRate is invalid. -/
theorem mtc10_amount_amended (prev : Option Char) (s : Text) (m : RMatch)
    (h : tryMatchAt prev s = some m) :
    m.numStr ≠ [] ∧ ∃ q : ℚ, amountFromMatch m = some q ∧ 0 ≤ q := by
  obtain ⟨s2, r2, hng⟩ := tryMatchAt_numStr h
  refine ⟨numGreedy_ne_nil hng, ?_⟩
  obtain ⟨q, hq, hq0⟩ := numGreedy_parse hng
  simp only [ne_eq, decide_not] at hq
  refine ⟨q * multiplier m.sufStr, ?_, ?_⟩
  · simp only [amountFromMatch, ne_eq, decide_not, hq]
  · exact mul_nonneg hq0 (le_of_lt (multiplier_pos _))

/-- Witness: the amended amount property at the concrete match "$5". -/
theorem mtc10_amount_amended_witness :
    tryMatchAt none ("$5".toList) = some ⟨"$5".toList, "5".toList, []⟩ ∧
    ("5".toList ≠ [] ∧ ∃ q : ℚ,
      amountFromMatch ⟨"$5".toList, "5".toList, []⟩ = some q ∧ 0 ≤ q) :=
  ⟨by decide, mtc10_amount_amended none ("$5".toList) ⟨"$5".toList, "5".toList, []⟩ (by decide)⟩

/-! ## Formatter lemmas: the greedy decomposition loop -/

theorem partsSumQ_append (a b : List TPart) :
    partsSumQ (a ++ b) = partsSumQ a + partsSumQ b := by
  simp [partsSumQ]

/-- Main loop invariant of tfLoop: the remaining value stays
non-negative, count-times-minutes sums plus the remaining value are
preserved, at most three parts accumulate from an initial store of at
most three, the emitted minutes are strictly descending, the remaining
value stays below every emitted unit with every count at least one, and
every part comes from the store or from the unit table. -/
theorem tfLoop_invariant :
    ∀ (units : List (String × ℚ)) (r : ℚ) (acc : List TPart),
      0 ≤ r →
      (∀ p ∈ acc, r < p.minutes ∧ 0 < p.minutes ∧ 1 ≤ p.count) →
      acc.Pairwise (fun a b => b.minutes < a.minutes) →
      0 ≤ (tfLoop units r acc).2 ∧
      partsSumQ (tfLoop units r acc).1 + (tfLoop units r acc).2 = partsSumQ acc + r ∧
      (tfLoop units r acc).1.length ≤ max acc.length 3 ∧
      (tfLoop units r acc).1.Pairwise (fun a b => b.minutes < a.minutes) ∧
      (∀ p ∈ (tfLoop units r acc).1,
        (tfLoop units r acc).2 < p.minutes ∧ 0 < p.minutes ∧ 1 ≤ p.count) ∧
      (∀ p ∈ (tfLoop units r acc).1, p ∈ acc ∨ (p.short, p.minutes) ∈ units)
  | [], r, acc, hr, hmem, hsort =>
    ⟨hr, rfl, le_max_left _ _, hsort, hmem, fun p hp => Or.inl hp⟩
  | (s, m) :: rest, r, acc, hr, hmem, hsort => by
    simp only [tfLoop]
    by_cases h3 : 3 ≤ acc.length
    · rw [if_pos h3]
      exact ⟨hr, rfl, le_max_left _ _, hsort, hmem, fun p hp => Or.inl hp⟩
    · rw [if_neg h3]
      by_cases hm : m ≤ 0
      · rw [if_pos hm]
        have ih := tfLoop_invariant rest r acc hr hmem hsort
        refine ⟨ih.1, ih.2.1, ih.2.2.1, ih.2.2.2.1, ih.2.2.2.2.1, ?_⟩
        intro p hp
        rcases ih.2.2.2.2.2 p hp with h | h
        · exact Or.inl h
        · exact Or.inr (List.mem_cons_of_mem _ h)
      · rw [if_neg hm]
        push_neg at hm
        by_cases hc : 0 < ⌊r / m⌋
        · rw [if_pos hc]
          have hc1 : (1 : ℤ) ≤ ⌊r / m⌋ := hc
          have hcq : (1 : ℚ) ≤ (⌊r / m⌋ : ℚ) := by exact_mod_cast hc1
          have hdiv1 : (1 : ℚ) ≤ r / m := by
            have := Int.le_floor.mp hc1
            simpa using this
          have hmr : m ≤ r := by
            have h5 := mul_le_mul_of_nonneg_right hdiv1 (le_of_lt hm)
            rwa [one_mul, div_mul_cancel₀ r (ne_of_gt hm)] at h5
          have hflo : (⌊r / m⌋ : ℚ) * m ≤ r := by
            have h5 := mul_le_mul_of_nonneg_right (Int.floor_le (r / m)) (le_of_lt hm)
            rwa [div_mul_cancel₀ r (ne_of_gt hm)] at h5
          have hrem : r - (⌊r / m⌋ : ℚ) * m < m := by
            have h5 : r / m < (⌊r / m⌋ : ℚ) + 1 := Int.lt_floor_add_one (r / m)
            have h6 := mul_lt_mul_of_pos_right h5 hm
            rw [div_mul_cancel₀ r (ne_of_gt hm)] at h6
            nlinarith
          have hcm0 : 0 ≤ (⌊r / m⌋ : ℚ) * m := by nlinarith
          have hr' : 0 ≤ r - (⌊r / m⌋ : ℚ) * m := by linarith
          have hmem' : ∀ p ∈ acc ++ [(⟨⌊r / m⌋, s, m⟩ : TPart)],
              r - (⌊r / m⌋ : ℚ) * m < p.minutes ∧ 0 < p.minutes ∧ 1 ≤ p.count := by
            intro p hp
            rcases List.mem_append.mp hp with h | h
            · have h5 := hmem p h
              exact ⟨by linarith [h5.1], h5.2.1, h5.2.2⟩
            · have h5 : p = (⟨⌊r / m⌋, s, m⟩ : TPart) := by simpa using h
              subst h5
              exact ⟨hrem, hm, hc1⟩
          have hsort' : (acc ++ [(⟨⌊r / m⌋, s, m⟩ : TPart)]).Pairwise
              (fun a b => b.minutes < a.minutes) := by
            rw [List.pairwise_append]
            refine ⟨hsort, List.pairwise_singleton _ _, ?_⟩
            intro a ha b hb
            have h5 : b = (⟨⌊r / m⌋, s, m⟩ : TPart) := by simpa using hb
            subst h5
            exact lt_of_le_of_lt hmr (hmem a ha).1
          have ih := tfLoop_invariant rest (r - (⌊r / m⌋ : ℚ) * m)
            (acc ++ [(⟨⌊r / m⌋, s, m⟩ : TPart)]) hr' hmem' hsort'
          refine ⟨ih.1, ?_, ?_, ih.2.2.2.1, ih.2.2.2.2.1, ?_⟩
          · have h5 := ih.2.1
            rw [partsSumQ_append] at h5
            have h6 : partsSumQ [(⟨⌊r / m⌋, s, m⟩ : TPart)] = (⌊r / m⌋ : ℚ) * m := by
              simp [partsSumQ]
            rw [h6] at h5
            linarith
          · have h5 := ih.2.2.1
            have h6 : (acc ++ [(⟨⌊r / m⌋, s, m⟩ : TPart)]).length = acc.length + 1 := by
              simp
            rw [h6] at h5
            have h7 : max (acc.length + 1) 3 = 3 := max_eq_right (by omega)
            have h8 : max acc.length 3 = 3 := max_eq_right (by omega)
            omega
          · intro p hp
            rcases ih.2.2.2.2.2 p hp with h | h
            · rcases List.mem_append.mp h with h5 | h5
              · exact Or.inl h5
              · have h6 : p = (⟨⌊r / m⌋, s, m⟩ : TPart) := by simpa using h5
                subst h6
                exact Or.inr (List.mem_cons_self _ _)
            · exact Or.inr (List.mem_cons_of_mem _ h)
        · rw [if_neg hc]
          have ih := tfLoop_invariant rest r acc hr hmem hsort
          refine ⟨ih.1, ih.2.1, ih.2.2.1, ih.2.2.2.1, ih.2.2.2.2.1, ?_⟩
          intro p hp
          rcases ih.2.2.2.2.2 p hp with h | h
          · exact Or.inl h
          · exact Or.inr (List.mem_cons_of_mem _ h)

/-- When every unit value and the starting value are integers, the
remaining value stays an integer. -/
theorem tfLoop_int :
    ∀ (units : List (String × ℚ)) (r : ℚ) (acc : List TPart),
      (∀ u ∈ units, ∃ k : ℤ, u.2 = (k : ℚ)) → (∃ k : ℤ, r = (k : ℚ)) →
      ∃ k : ℤ, (tfLoop units r acc).2 = (k : ℚ)
  | [], r, acc, _, hr => by simpa [tfLoop] using hr
  | (s, m) :: rest, r, acc, hu, hr => by
    simp only [tfLoop]
    by_cases h3 : 3 ≤ acc.length
    · rw [if_pos h3]
      simpa using hr
    · rw [if_neg h3]
      have hurest : ∀ u ∈ rest, ∃ k : ℤ, u.2 = (k : ℚ) :=
        fun u hu2 => hu u (List.mem_cons_of_mem _ hu2)
      by_cases hm : m ≤ 0
      · rw [if_pos hm]
        exact tfLoop_int rest r acc hurest hr
      · rw [if_neg hm]
        by_cases hc : 0 < ⌊r / m⌋
        · rw [if_pos hc]
          obtain ⟨k1, hk1⟩ := hr
          obtain ⟨k2, hk2⟩ := hu (s, m) (List.mem_cons_self _ _)
          refine tfLoop_int rest _ _ hurest ⟨k1 - ⌊r / m⌋ * k2, ?_⟩
          rw [hk1]
          simp only at hk2
          rw [hk2]
          push_cast
          ring
        · rw [if_neg hc]
          exact tfLoop_int rest r acc hurest hr

/-- From a remaining value of zero the loop emits nothing. -/
theorem tfLoop_zero : ∀ (units : List (String × ℚ)) (acc : List TPart),
    tfLoop units 0 acc = (acc, 0)
  | [], acc => rfl
  | (s, m) :: rest, acc => by
    simp only [tfLoop]
    by_cases h3 : 3 ≤ acc.length
    · rw [if_pos h3]
    · rw [if_neg h3]
      by_cases hm : m ≤ 0
      · rw [if_pos hm]
        exact tfLoop_zero rest acc
      · rw [if_neg hm]
        have hc : ⌊(0 : ℚ) / m⌋ = 0 := by
          rw [zero_div]
          exact Int.floor_zero
        rw [hc]
        simp only [lt_self_iff_false, if_false]
        exact tfLoop_zero rest acc

/-! ## The formatter claims -/

/-- C2: for positive amount and hourlyRate, with a positive work
schedule, the emitted unit parts number at most 3, their minutes-per-unit
values are strictly descending, and each comes from the derived unit
table. -/
theorem mtc2_parts_bounded (st : Settings) (amount rate : ℚ)
    (_hpd : 0 < st.hoursPerDay) (_hdw : 0 < st.daysPerWeek)
    (h3 : 0 < amount) (h4 : 0 < rate) :
    (timeParts st amount rate).length ≤ 3 ∧
    (timeParts st amount rate).Pairwise (fun p q => q.minutes < p.minutes) ∧
    List.Forall (fun p => (p.short, p.minutes) ∈ unitsFor st)
      (timeParts st amount rate) := by
  have hT : 0 < amount / rate * 60 := by positivity
  have hr0 : (0 : ℚ) ≤ ((⌊amount / rate * 60⌋ : ℤ) : ℚ) := by
    have h5 : (0 : ℤ) ≤ ⌊amount / rate * 60⌋ := Int.floor_nonneg.mpr (le_of_lt hT)
    exact_mod_cast h5
  have ih := tfLoop_invariant (unitsFor st) ((⌊amount / rate * 60⌋ : ℤ) : ℚ) []
    hr0 (by simp) (by simp)
  refine ⟨?_, ih.2.2.2.1, ?_⟩
  · have h5 := ih.2.2.1
    simpa [timeParts] using h5
  · rw [List.forall_iff_forall_mem]
    intro p hp
    rcases ih.2.2.2.2.2 p hp with h | h
    · simp at h
    · exact h

unseal Rat.add Rat.mul Rat.inv Rat.sub in
/-- Witness for C2 at the worked scenario inputs. -/
theorem mtc2_parts_bounded_witness :
    (0 < DEFAULT.hoursPerDay ∧ 0 < DEFAULT.daysPerWeek ∧
      (0 : ℚ) < 1000 ∧ (0 : ℚ) < 15) ∧
    (timeParts DEFAULT 1000 15).length ≤ 3 ∧
    (timeParts DEFAULT 1000 15).Pairwise (fun p q => q.minutes < p.minutes) ∧
    List.Forall (fun p => (p.short, p.minutes) ∈ unitsFor DEFAULT)
      (timeParts DEFAULT 1000 15) :=
  ⟨⟨by decide, by decide, by decide, by decide⟩,
    mtc2_parts_bounded DEFAULT 1000 15 (by decide) (by decide) (by decide) (by decide)⟩

/-- A work schedule with positive but pathological parameters: one
sixtieth of an hour per day, one day per week.  Its derived month unit
has the non-integer value 13/3 work minutes. -/
def badSchedule : Settings := ⟨60, 1 / 60, 1, DisplayMode.inline⟩

unseal Rat.add Rat.mul Rat.inv Rat.sub in
/-- C3 counterexample: with the positive schedule badSchedule, amount
52609/10 and hourlyRate 60 (total minutes 5260.9), the emitted parts are
1c, 1y and 1mo with smallest emitted unit 13/3 minutes, and the
difference between the true total minutes and the emitted sum is 137/30,
which is not below 13/3 = 130/30: the truncation bound of the claim
fails. -/
theorem mtc3_truncation_counterexample :
    timeParts badSchedule (52609 / 10) 60 =
      [⟨1, "c", 5200⟩, ⟨1, "y", 52⟩, ⟨1, "mo", 13 / 3⟩] ∧
    ¬ ((52609 / 10 : ℚ) / 60 * 60 - partsSumQ (timeParts badSchedule (52609 / 10) 60) <
        13 / 3) := by
  constructor
  · decide
  · decide

/-- C3 (amended): for positive amount and hourlyRate with at least one
emitted part, the sum of count times minutes over the emitted parts
never exceeds the true total minutes; and when every derived unit value
is an integer number of minutes (as with the default schedule), the
difference is below the smallest (last) emitted unit value. -/
theorem mtc3_truncation_amended (st : Settings) (amount rate : ℚ)
    (h1 : 0 < amount) (h2 : 0 < rate)
    (hne : timeParts st amount rate ≠ []) :
    partsSumQ (timeParts st amount rate) ≤ amount / rate * 60 ∧
    ((∀ u ∈ unitsFor st, (u.2).den = 1) →
      amount / rate * 60 - partsSumQ (timeParts st amount rate) <
        ((timeParts st amount rate).getLast hne).minutes) := by
  have hT : 0 < amount / rate * 60 := by positivity
  have hfl : (0 : ℤ) ≤ ⌊amount / rate * 60⌋ := Int.floor_nonneg.mpr (le_of_lt hT)
  have hr0 : (0 : ℚ) ≤ ((⌊amount / rate * 60⌋ : ℤ) : ℚ) := by exact_mod_cast hfl
  have ih := tfLoop_invariant (unitsFor st) ((⌊amount / rate * 60⌋ : ℤ) : ℚ) []
    hr0 (by simp) (by simp)
  have hsum : partsSumQ (timeParts st amount rate) +
      (tfLoop (unitsFor st) ((⌊amount / rate * 60⌋ : ℤ) : ℚ) []).2 =
      ((⌊amount / rate * 60⌋ : ℤ) : ℚ) := by
    have h5 := ih.2.1
    simpa [timeParts, partsSumQ] using h5
  have hfloor_le : ((⌊amount / rate * 60⌋ : ℤ) : ℚ) ≤ amount / rate * 60 :=
    Int.floor_le _
  constructor
  · have h5 := ih.1
    linarith
  · intro hint
    have hlast : (timeParts st amount rate).getLast hne ∈ timeParts st amount rate :=
      List.getLast_mem hne
    have hmemf := ih.2.2.2.2.1 _ hlast
    have horig := ih.2.2.2.2.2 _ hlast
    have hin : (((timeParts st amount rate).getLast hne).short,
        ((timeParts st amount rate).getLast hne).minutes) ∈ unitsFor st := by
      rcases horig with h | h
      · simp at h
      · exact h
    have hden : (((timeParts st amount rate).getLast hne).minutes).den = 1 :=
      hint _ hin
    have hkm : ((((timeParts st amount rate).getLast hne).minutes).num : ℚ) =
        ((timeParts st amount rate).getLast hne).minutes :=
      (Rat.den_eq_one_iff _).mp hden
    obtain ⟨kf, hkf⟩ := tfLoop_int (unitsFor st) ((⌊amount / rate * 60⌋ : ℤ) : ℚ) []
      (fun u hu => ⟨(u.2).num, ((Rat.den_eq_one_iff _).mp (hint u hu)).symm⟩)
      ⟨⌊amount / rate * 60⌋, rfl⟩
    have hlt : (kf : ℚ) < ((((timeParts st amount rate).getLast hne).minutes).num : ℚ) := by
      rw [hkm, ← hkf]
      exact hmemf.1
    have hlti : kf < (((timeParts st amount rate).getLast hne).minutes).num := by
      exact_mod_cast hlt
    have hle : (kf : ℚ) ≤ ((((timeParts st amount rate).getLast hne).minutes).num : ℚ) - 1 := by
      have h5 : kf ≤ (((timeParts st amount rate).getLast hne).minutes).num - 1 := by omega
      have h6 : ((kf : ℚ) : ℚ) ≤
          (((((timeParts st amount rate).getLast hne).minutes).num - 1 : ℤ) : ℚ) := by
        exact_mod_cast h5
      push_cast at h6
      exact h6
    have hfr : amount / rate * 60 < ((⌊amount / rate * 60⌋ : ℤ) : ℚ) + 1 :=
      Int.lt_floor_add_one _
    rw [← hkm]
    linarith [hkf ▸ hsum]

unseal Rat.add Rat.mul Rat.inv Rat.sub in
/-- Witness for C3 (amended) at the worked scenario inputs, with the
inner integrality hypothesis also discharged. -/
theorem mtc3_truncation_amended_witness :
    ((0 : ℚ) < 1000 ∧ (0 : ℚ) < 15 ∧ timeParts DEFAULT 1000 15 ≠ []) ∧
    partsSumQ (timeParts DEFAULT 1000 15) ≤ 1000 / 15 * 60 ∧
    1000 / 15 * 60 - partsSumQ (timeParts DEFAULT 1000 15) <
      ((timeParts DEFAULT 1000 15).getLast (by decide)).minutes :=
  ⟨⟨by decide, by decide, by decide⟩,
    (mtc3_truncation_amended DEFAULT 1000 15 (by decide) (by decide) (by decide)).1,
    (mtc3_truncation_amended DEFAULT 1000 15 (by decide) (by decide) (by decide)).2
      (by decide)⟩

unseal Rat.add Rat.mul Rat.inv Rat.sub in
/-- C4 counterexample: for a valid amount below one earned minute the
function returns the sentinel "<1m", which is not the string "<1 min"
the claim names. -/
theorem mtc4_sentinel_counterexample :
    formatTimeFromMoney DEFAULT (1 / 10) 15 = some "<1m" ∧
    (some "<1m" : Option String) ≠ some "<1 min" := by
  constructor
  · decide
  · decide

/-- C4 (amended): formatTimeFromMoney returns null exactly on
non-positive amount or rate (non-finite inputs do not arise in exact
rational arithmetic), and on valid inputs whose floored total minutes is
zero it returns the sentinel "<1m", a nonempty string rather than null. -/
theorem mtc4_null_iff_amended (st : Settings) (amount rate : ℚ) :
    (formatTimeFromMoney st amount rate = none ↔ amount ≤ 0 ∨ rate ≤ 0) ∧
    (0 < amount → 0 < rate → ⌊amount / rate * 60⌋ = 0 →
      formatTimeFromMoney st amount rate = some "<1m" ∧ "<1m" ≠ "") := by
  constructor
  · constructor
    · intro h
      by_contra hc
      rw [formatTimeFromMoney, if_neg hc] at h
      have h2 : (if (timeParts st amount rate).isEmpty then (some "<1m" : Option String)
          else some (String.intercalate " " ((timeParts st amount rate).map renderPart))) =
          none := h
      split at h2
      · exact absurd h2 (by simp)
      · exact absurd h2 (by simp)
    · intro h
      rw [formatTimeFromMoney, if_pos h]
  · intro ha hr hfl
    have hparts : timeParts st amount rate = [] := by
      rw [timeParts, hfl]
      rw [show ((0 : ℤ) : ℚ) = 0 from rfl]
      rw [tfLoop_zero]
    have hval : ¬ (amount ≤ 0 ∨ rate ≤ 0) := by
      push_neg
      exact ⟨ha, hr⟩
    constructor
    · rw [formatTimeFromMoney, if_neg hval]
      simp [hparts]
    · decide

unseal Rat.add Rat.mul Rat.inv Rat.sub in
/-- Witness for C4 (amended): instantiated at a sub-minute amount. -/
theorem mtc4_null_iff_amended_witness :
    (formatTimeFromMoney DEFAULT (1 / 10) 15 = none ↔ (1 / 10 : ℚ) ≤ 0 ∨ (15 : ℚ) ≤ 0) ∧
    ((0 : ℚ) < 1 / 10 ∧ (0 : ℚ) < 15 ∧ ⌊(1 / 10 : ℚ) / 15 * 60⌋ = 0) ∧
    formatTimeFromMoney DEFAULT (1 / 10) 15 = some "<1m" ∧ "<1m" ≠ "" :=
  ⟨(mtc4_null_iff_amended DEFAULT (1 / 10) 15).1,
    ⟨by decide, by decide, by decide⟩,
    (mtc4_null_iff_amended DEFAULT (1 / 10) 15).2 (by decide) (by decide) (by decide)⟩

unseal Rat.add Rat.mul Rat.inv Rat.sub in
/-- C5 counterexample: with the worked scenario inputs the function does
not return "1w3d2h"; the parts are joined with spaces. -/
theorem mtc5_scenario_counterexample :
    formatTimeFromMoney DEFAULT 1000 15 ≠ some "1w3d2h" := by
  decide

unseal Rat.add Rat.mul Rat.inv Rat.sub in
/-- C5 (amended): amount 1000 at rate 15 with the default 8-hour,
5-day schedule gives day 480 and week 2400 work minutes, total minutes
4000, greedy parts 1 week, 3 days, 2 hours (the 40-minute remainder is
dropped after three parts), and the rendered string "1w 3d 2h" with the
parts joined by single spaces. -/
theorem mtc5_scenario_amended :
    unitsFor DEFAULT = [("c", 12480000), ("y", 124800), ("mo", 10400),
      ("w", 2400), ("d", 480), ("h", 60), ("min", 1)] ∧
    (1000 : ℚ) / 15 * 60 = 4000 ∧
    timeParts DEFAULT 1000 15 = [⟨1, "w", 2400⟩, ⟨3, "d", 480⟩, ⟨2, "h", 60⟩] ∧
    formatTimeFromMoney DEFAULT 1000 15 = some "1w 3d 2h" := by
  refine ⟨by decide, by decide, by decide, by decide⟩

/-! ## The document claims -/

unseal Rat.add Rat.mul Rat.inv Rat.sub in
/-- C7: for the text "Pay $5 now" under inline mode at hourlyRate 15 the
formatter yields "20min" from a single emitted unit of 20 minutes, and
the built fragment reads "Pay $5 (20min) now" — exactly one space on
each side of the parenthesised duration.  (The match itself consumes the
trailing space of "$5 ", so the annotation needs no leading space and
the following gap starts directly at "now".) -/
theorem mtc7_inline_spacing :
    formatTimeFromMoney DEFAULT 5 15 = some "20min" ∧
    timeParts DEFAULT 5 15 = [⟨20, "min", 1⟩] ∧
    domTextList (buildAnnotatedFragment DEFAULT ("Pay $5 now".toList)) =
      "Pay $5 (20min) now".toList := by
  refine ⟨by decide, by decide, by decide⟩

unseal Rat.add Rat.mul Rat.inv Rat.sub in
/-- C8 counterexample: for the text "$0" every match is non-convertible,
so the built fragment is identical in content to the original text, yet
processTextNode still commits it — replaceChild is called (the mutation
flag is true), replacing the node with equal content.  The no-op
guarantee claimed for content-identical fragments does not hold. -/
theorem mtc8_noop_counterexample :
    domTextList (buildAnnotatedFragment DEFAULT ("$0".toList)) = "$0".toList ∧
    (processTextNode DEFAULT false false "DIV" ("$0".toList)).2 = true := by
  constructor
  · decide
  · decide

/-- C8 (amended): committing is a no-op when the fragment is empty, and
when the text has no money match at all the node is left untouched; but
a nonempty fragment is always committed, even when its content is
identical to the original text. -/
theorem mtc8_noop_amended (st : Settings) (ancP ancI : Bool) (tag : String) (s : Text) :
    (buildAnnotatedFragment st s = [] → (processTextNode st ancP ancI tag s).2 = false) ∧
    (hasMatch s = false → processTextNode st ancP ancI tag s = ([Dom.text s], false)) := by
  constructor
  · intro hf
    simp only [processTextNode]
    split
    · rfl
    · split
      · rfl
      · split
        · rfl
        · split
          · rfl
          · have he : (buildAnnotatedFragment st s).isEmpty = true := by simp [hf]
            simp [he]
  · intro hm
    simp only [processTextNode]
    split
    · rfl
    · split
      · rfl
      · split
        · rfl
        · split
          · rfl
          · next h4 => exact absurd (by simp [hm] : (!hasMatch s) = true) h4

/-- Witness for C8 (amended): the empty text yields an empty fragment
and no mutation; a plain text with no match is left untouched. -/
theorem mtc8_noop_amended_witness :
    (processTextNode DEFAULT false false "DIV" []).2 = false ∧
    processTextNode DEFAULT false false "DIV" ("x".toList) =
      ([Dom.text ("x".toList)], false) :=
  ⟨(mtc8_noop_amended DEFAULT false false "DIV" []).1 (by decide),
    (mtc8_noop_amended DEFAULT false false "DIV" ("x".toList)).2 (by decide)⟩

unseal Rat.add Rat.mul Rat.inv Rat.sub in
/-- C9: a structured price element with no full-text sub-node and parts
symbol "$", whole "49", fraction "99" is reconstructed as "$4999", whose
first numeric run parses to the amount 4999 — the fraction digits are
concatenated, not divided by 100 (4999 is not 49.99). -/
theorem mtc9_structured_price :
    structuredPriceText [] ("$".toList) ("49".toList) ("99".toList) =
      some ("$4999".toList) ∧
    structuredAmount ("$4999".toList) = some 4999 ∧
    structuredAmount ("$4999".toList) ≠ some (49 + 99 / 100 : ℚ) := by
  refine ⟨by decide, by decide, by decide⟩

unseal Rat.add Rat.mul Rat.inv Rat.sub in
/-- C10 counterexample: the text "$0" is a regex-produced match (its
amount parses to 0, not NaN), yet buildAnnotatedFragment takes the
fallback branch and appends the raw matched text as a plain, unmarked
text node, because formatTimeFromMoney rejects the non-positive amount.
The fallback branch is therefore reachable for regex-produced matches. -/
theorem mtc10_fallback_counterexample :
    hasMatch ("$0".toList) = true ∧
    amountFromMatch ⟨"$0".toList, "0".toList, []⟩ = some 0 ∧
    buildAnnotatedFragment DEFAULT ("$0".toList) = [Dom.text ("$0".toList)] := by
  refine ⟨by decide, by decide, by decide⟩

/-- The tree exhibiting the C1 idempotence failure: a DIV whose only
text is "$1USD 5". -/
def mtBugTree : Dom := Dom.elem "DIV" false false [Dom.text ("$1USD 5".toList)]

unseal Rat.add Rat.mul Rat.inv Rat.sub in
/-- C1 is violated by the code: on a DIV containing "$1USD 5" the first
full scan matches only "$1" (the word boundary before "USD" fails after
the digit) and leaves "USD 5" as a plain trailing text node; the second
scan, running on that sliced node, now sees a word boundary at the start
of the node, matches "USD 5" and mutates the tree again.  processDocument
is not idempotent on a static tree. -/
theorem mtc1_second_pass_rematches :
    processDocument DEFAULT (processDocument DEFAULT mtBugTree) ≠
      processDocument DEFAULT mtBugTree := by
  decide

end MoneyTime
